import Mathlib

/-!
Verification of the CRC code generator (phy_fpga/crcgen.py).

The development shallowly embeds the symbolic expression engine of the
generator: the Bit / XOR expression model, Word with its flatten and
optimize passes, the 8-round symbolic unrolling of the bit-serial CRC
update, the renderers, the command line validation, and the numeric
reference implementation crc8_ref used by the self test.
-/

set_option maxHeartbeats 1000000

namespace CrcGenSpec

/-- Boolean expression tree of the generator.
`bit name index` models class Bit, a reference to one bit of a named
register; two Bit objects compare equal iff name and index match.
`xor oid items` models class XOR, an n-ary exclusive-or node owning a list
of child expressions.  The extra field `oid` models Python object identity:
class XOR defines no `__eq__`, so the `==` comparisons performed by
`item in newItems` inside XOR.optimize fall back to object identity for
XOR operands.  Distinct XOR objects carry distinct tags; the same tag at
two list positions models the same object occurring at both positions.
Bit defines a structural `__eq__`, so Bit needs no tag.  On the generation
path no identity comparison between XOR objects ever happens (optimize only
runs after flatten, whose output words have only Bit operands), so nodes
built on that path all use tag 0. -/
inductive Expr where
  | bit (name : String) (index : Nat)
  | xor (oid : Nat) (items : List Expr)

/-- isinstance(e, Bit) as a Boolean test. -/
def Expr.isBit : Expr → Bool
  | .bit _ _ => true
  | .xor _ _ => false

/-- isinstance(e, XOR) as a Boolean test. -/
def Expr.isXor : Expr → Bool
  | .bit _ _ => false
  | .xor _ _ => true

/-- Python equality as used by `item in newItems` and by `i == item` inside
XOR.optimize: Bit vs Bit compares register name and bit index (the
dataclass `__eq__` of Bit); XOR vs XOR falls back to object identity since
XOR defines no `__eq__`; Bit vs XOR is always False. -/
def pyEq : Expr → Expr → Bool
  | .bit n i, .bit m j => n == m && i == j
  | .xor a _, .xor b _ => a == b
  | _, _ => false

mutual
/-- The allBitsRecursive property: in-order enumeration of the leaf Bit
objects of an expression tree (Bit yields itself, XOR yields from each
child in turn). -/
def allBitsRecursive : Expr → List Expr
  | .bit n i => [.bit n i]
  | .xor _ items => allBitsList items

/-- Enumeration of the leaves of a child list, child by child. -/
def allBitsList : List Expr → List Expr
  | [] => []
  | e :: rest => allBitsRecursive e ++ allBitsList rest
end

mutual
/-- Truth value of an expression under an assignment of truth values to the
referenced register bits (XOR semantics: an ExclusiveOr node evaluates to
the exclusive-or of its children). -/
def evalExpr (v : String → Nat → Bool) : Expr → Bool
  | .bit n i => v n i
  | .xor _ items => evalList v items

/-- Exclusive-or fold of the truth values of a list of expressions. -/
def evalList (v : String → Nat → Bool) : List Expr → Bool
  | [] => false
  | e :: rest => Bool.xor (evalExpr v e) (evalList v rest)
end

/-- The multiplicity count inside XOR.optimize:
sum(1 if (isinstance(i, Bit) and i == item) else 0 for i in self.__items). -/
def countBitEq (items : List Expr) (item : Expr) : Nat :=
  (items.filter (fun i => i.isBit && pyEq i item)).length

/-- The loop body of XOR.optimize (crcgen.py lines 71-86), with `orig` the
list the multiplicity count runs over (self.__items, unchanged during the
loop) and the first argument the accumulating newItems list:
skip an item already contained in newItems (Python `in`, i.e. pyEq);
append any non-Bit item; append a Bit item iff its multiplicity among the
Bit elements of the original list is odd. -/
def xorOptGo (orig : List Expr) : List Expr → List Expr → List Expr
  | acc, [] => acc
  | acc, item :: rest =>
    if acc.any (fun x => pyEq x item) then xorOptGo orig acc rest
    else if item.isBit = false then xorOptGo orig (acc ++ [item]) rest
    else if countBitEq orig item % 2 = 1 then xorOptGo orig (acc ++ [item]) rest
    else xorOptGo orig acc rest

/-- XOR.optimize: the new operand list computed from the old one. -/
def xorOptimize (items : List Expr) : List Expr := xorOptGo items [] items

/-- Modelled from the claim text (the specified result of XOR.optimize):
a non-Bit operand is kept unconditionally; a Bit operand is kept at its
first occurrence iff its multiplicity among the Bit leaves of the list is
odd, and every later occurrence is dropped; surviving operands keep the
first-occurrence order.  This differs from xorOptGo only in that the
membership test is *not* applied to non-Bit operands. -/
def specGo (orig : List Expr) : List Expr → List Expr → List Expr
  | acc, [] => acc
  | acc, item :: rest =>
    if item.isBit = false then specGo orig (acc ++ [item]) rest
    else if acc.any (fun x => pyEq x item) then specGo orig acc rest
    else if countBitEq orig item % 2 = 1 then specGo orig (acc ++ [item]) rest
    else specGo orig acc rest

/-- The operand list the specification describes as the result of
XOR.optimize. -/
def xorOptimizeSpec (items : List Expr) : List Expr := specGo items [] items

/-- XOR.__init__ (crcgen.py lines 61-63): assert(len(items) >= 2), then the
items are stored.  Fewer than 2 children fail fast (None); otherwise an
ExclusiveOr node results.  A freshly allocated object would carry a fresh
identity tag; we use tag 0 because nodes built through this constructor are
never compared by identity on any path modelled here. -/
def xorInit (items : List Expr) : Option Expr :=
  if 2 ≤ items.length then some (.xor 0 items) else none

/-- Word.__init__ with the default MSB=True: the given
most-significant-bit-first sequence is reversed, so that stored index 0 is
the least significant position. -/
def mkWordMSB (bits : List Expr) : List Expr := bits.reverse

/-- Placeholder default used by wordGet; every access in this development
is within bounds, matching the always-in-range indexing of the source. -/
def dfltBit : Expr := .bit "" 0

/-- Word.__getitem__. -/
def wordGet (w : List Expr) (i : Nat) : Expr := w.getD i dfltBit

/-- Failure modes of the generation path. -/
inductive GenErr where
  /-- assert(self.__nrBits == 8) in CrcGen.__gen fails. -/
  | nrBitsAssert
  /-- assert(len(items) >= 2) in XOR.__init__ fails. -/
  | xorAssert
  /-- NameError: the non-XOR branch of Word.flatten references the
  undefined name `bit` instead of the element being processed. -/
  | nameErrorBit

/-- One element of the Word.flatten loop (crcgen.py lines 107-114): an XOR
element is replaced by a new XOR built from its recursively enumerated
leaves (whose constructor asserts at least 2 operands); any other element
hits the branch `newItems.append(bit)` whose name `bit` is undefined, so
the loop raises NameError. -/
def flattenElem : Expr → Except GenErr Expr
  | .xor _ items =>
    match xorInit (allBitsList items) with
    | some e => .ok e
    | none => .error .xorAssert
  | .bit _ _ => .error .nameErrorBit

/-- Word.flatten: the elements are processed in order and the first failure
aborts the pass. -/
def wordFlatten : List Expr → Except GenErr (List Expr)
  | [] => .ok []
  | item :: rest =>
    match flattenElem item with
    | .error e => .error e
    | .ok e =>
      match wordFlatten rest with
      | .error err => .error err
      | .ok rest2 => .ok (e :: rest2)

/-- item.optimize() for one Word element: Bit.optimize is a no-op, and
XOR.optimize replaces the operand list in place (the object, hence its
identity tag, is unchanged). -/
def optimizeElem : Expr → Expr
  | .bit n i => .bit n i
  | .xor oid items => .xor oid (xorOptimize items)

/-- Word.optimize (crcgen.py lines 116-118). -/
def wordOptimize (w : List Expr) : List Expr := w.map optimizeElem

/-- The generator object: polynomial and register width. -/
structure CrcGen where
  P : Nat
  nrBits : Nat

/-- CrcGen.__init__: assert(P & 1), i.e. only odd polynomials construct. -/
def CrcGen.mkChecked (P : Nat) (nrBits : Nat) : Option CrcGen :=
  if P &&& 1 = 1 then some ⟨P, nrBits⟩ else none

/-- The local helper p(a, b, bitNr) of CrcGen.__gen: with a = None the
result is b; otherwise, if bit bitNr of the polynomial is set, a new
ExclusiveOr of a and b, else a unchanged. -/
def pComb (P : Nat) (a : Option Expr) (b : Expr) (bitNr : Nat) : Expr :=
  match a with
  | none => b
  | some a => if (P >>> bitNr) &&& 1 = 1 then .xor 0 [a, b] else a

/-- inData of CrcGen.__gen: Word([Bit(dataVarName, i) for i in
reversed(range(8))]). -/
def inDataWord (dataVarName : String) : List Expr :=
  mkWordMSB (((List.range 8).reverse).map (fun i => Expr.bit dataVarName i))

/-- inCrc of CrcGen.__gen. -/
def inCrcWord (crcVarName : String) : List Expr :=
  mkWordMSB (((List.range 8).reverse).map (fun i => Expr.bit crcVarName i))

/-- base of CrcGen.__gen: Word([XOR(inData[i], inCrc[i]) for i in
reversed(range(8))]). -/
def crcBase (dataVarName crcVarName : String) : List Expr :=
  mkWordMSB (((List.range 8).reverse).map (fun i =>
    Expr.xor 0 [wordGet (inDataWord dataVarName) i, wordGet (inCrcWord crcVarName) i]))

/-- One iteration of the unrolling loop of CrcGen.__gen (lines 139-149):
the new Word is built most-significant-bit-first from
p(prev[6], prev[7], 7) down to p(None, prev[7], 0). -/
def crcRound (P : Nat) (prevWord : List Expr) : List Expr :=
  mkWordMSB
    [ pComb P (some (wordGet prevWord 6)) (wordGet prevWord 7) 7,
      pComb P (some (wordGet prevWord 5)) (wordGet prevWord 7) 6,
      pComb P (some (wordGet prevWord 4)) (wordGet prevWord 7) 5,
      pComb P (some (wordGet prevWord 3)) (wordGet prevWord 7) 4,
      pComb P (some (wordGet prevWord 2)) (wordGet prevWord 7) 3,
      pComb P (some (wordGet prevWord 1)) (wordGet prevWord 7) 2,
      pComb P (some (wordGet prevWord 0)) (wordGet prevWord 7) 1,
      pComb P none (wordGet prevWord 7) 0 ]

/-- The Word after n iterations of the unrolling loop, starting from the
base Word. -/
def crcWords (P : Nat) (dataVarName crcVarName : String) : Nat → List Expr
  | 0 => crcBase dataVarName crcVarName
  | n + 1 => crcRound P (crcWords P dataVarName crcVarName n)

/-- The Word CrcGen.__gen passes to flatten: 8 iterations of the loop. -/
def crcGenWord (P : Nat) (dataVarName crcVarName : String) : List Expr :=
  crcWords P dataVarName crcVarName 8

/-- CrcGen.__gen (crcgen.py lines 126-156): assert(self.__nrBits == 8),
build the base Word, run 8 derivation rounds, flatten, optimize, return. -/
def CrcGen.gen (g : CrcGen) (dataVarName crcVarName : String) :
    Except GenErr (List Expr) :=
  if g.nrBits = 8 then
    match wordFlatten (crcGenWord g.P dataVarName crcVarName) with
    | .error e => .error e
    | .ok w => .ok (wordOptimize w)
  else .error .nrBitsAssert

mutual
/-- Bit.py and XOR.py: the software rendering of an expression. -/
def pyExpr : Expr → String
  | .bit n 0 => "(" ++ n ++ " & 1)"
  | .bit n (i + 1) => "((" ++ n ++ " >> " ++ toString (i + 1) ++ ") & 1)"
  | .xor _ items => "(" ++ pyJoin items ++ ")"

/-- The " ^ ".join over the rendered children. -/
def pyJoin : List Expr → String
  | [] => ""
  | [e] => pyExpr e
  | e :: e2 :: rest => pyExpr e ++ " ^ " ++ pyJoin (e2 :: rest)
end

mutual
/-- Bit.verilog and XOR.verilog: the hardware rendering of an expression. -/
def verilogExpr : Expr → String
  | .bit n i => n ++ "[" ++ toString i ++ "]"
  | .xor _ items => "(" ++ verilogJoin items ++ ")"

/-- The " ^ ".join over the rendered children. -/
def verilogJoin : List Expr → String
  | [] => ""
  | [e] => verilogExpr e
  | e :: e2 :: rest => verilogExpr e ++ " ^ " ++ verilogJoin (e2 :: rest)
end

/-- Upper case hexadecimal digits. -/
def hexDigits : List String :=
  ["0", "1", "2", "3", "4", "5", "6", "7", "8", "9", "A", "B", "C", "D", "E", "F"]

/-- The %X rendering of a number. -/
def hexStr (n : Nat) : String :=
  if n < 16 then hexDigits.getD n "0"
  else hexStr (n / 16) ++ hexDigits.getD (n % 16) "0"
decreasing_by exact Nat.div_lt_self (by omega) (by omega)

/-- The three lines of CrcGen.__header. -/
def headerLines : List String :=
  ["THIS IS GENERATED CODE.",
   "This code is Public Domain.",
   "It can be used without any restrictions."]

/-- The per-bit assignment lines of genPython (and of genC, which reuses
the py rendering): position 0 assigns, later positions or-in the rendered
expression shifted left by the position. -/
def pyBodyGo (lineEnd : String) : Nat → List Expr → List String
  | _, [] => []
  | 0, e :: rest =>
    ("\tret = (" ++ pyExpr e ++ ")" ++ lineEnd) :: pyBodyGo lineEnd 1 rest
  | i + 1, e :: rest =>
    ("\tret |= (" ++ pyExpr e ++ ") << " ++ toString (i + 1) ++ lineEnd)
      :: pyBodyGo lineEnd (i + 2) rest

/-- CrcGen.genPython. -/
def CrcGen.genPython (g : CrcGen) (funcName crcVarName dataVarName : String) :
    Except GenErr String :=
  match CrcGen.gen g dataVarName crcVarName with
  | .error e => .error e
  | .ok word => .ok (String.intercalate "\n"
      (["# vim: ts=8 sw=8 noexpandtab"]
        ++ headerLines.map (fun l => "# " ++ l)
        ++ ["",
            "# polynomial = 0x" ++ hexStr g.P,
            "def " ++ funcName ++ "(" ++ crcVarName ++ ", " ++ dataVarName ++ "):"]
        ++ pyBodyGo "" 0 word
        ++ ["\treturn ret"]))

/-- The per-bit assignment lines of genVerilog. -/
def verilogBodyGo (tgt pre : String) : Nat → List Expr → List String
  | _, [] => []
  | i, e :: rest =>
    ("\t" ++ pre ++ tgt ++ "[" ++ toString i ++ "] = " ++ verilogExpr e ++ ";")
      :: verilogBodyGo tgt pre (i + 1) rest

/-- CrcGen.genVerilog. -/
def CrcGen.genVerilog (g : CrcGen) (genFunction : Bool)
    (name inDataName inCrcName outCrcName : String) : Except GenErr String :=
  match CrcGen.gen g inDataName inCrcName with
  | .error e => .error e
  | .ok word => .ok (String.intercalate "\n"
      (["// vim: ts=4 sw=4 noexpandtab"]
        ++ headerLines.map (fun l => "// " ++ l)
        ++ [""]
        ++ (bif genFunction then [] else
             ["`ifndef " ++ name.toUpper ++ "_V_",
              "`define " ++ name.toUpper ++ "_V_",
              ""])
        ++ ["// polynomial = 0x" ++ hexStr g.P]
        ++ (bif genFunction then
             ["function automatic [" ++ toString (g.nrBits - 1) ++ ":0] " ++ name ++ ";"]
            else
             ["module " ++ name ++ " ("])
        ++ ["\tinput [" ++ toString (g.nrBits - 1) ++ ":0] " ++ inCrcName
              ++ (bif genFunction then ";" else ","),
            "\tinput [" ++ toString (g.nrBits - 1) ++ ":0] " ++ inDataName
              ++ (bif genFunction then ";" else ",")]
        ++ (bif genFunction then ["begin"] else
             ["\toutput [" ++ toString (g.nrBits - 1) ++ ":0] " ++ outCrcName ++ ",",
              ");"])
        ++ verilogBodyGo (bif genFunction then name else outCrcName)
             (bif genFunction then "" else "assign ") 0 word
        ++ (bif genFunction then ["end", "endfunction"] else
             ["endmodule", "", "`endif // " ++ name.toUpper ++ "_V_"])))

/-- CrcGen.genC (which renders the expressions with the py rendering). -/
def CrcGen.genC (g : CrcGen) (funcName crcVarName dataVarName : String)
    (staticFlag inlineFlag : Bool) : Except GenErr String :=
  match CrcGen.gen g dataVarName crcVarName with
  | .error e => .error e
  | .ok word => .ok (String.intercalate "\n"
      (["// vim: ts=4 sw=4 noexpandtab"]
        ++ headerLines.map (fun l => "// " ++ l)
        ++ ["",
            "#ifndef " ++ funcName.toUpper ++ "_H_",
            "#define " ++ funcName.toUpper ++ "_H_",
            "",
            "#include <stdint.h>",
            "",
            "// polynomial = 0x" ++ hexStr g.P,
            (bif staticFlag then "static " else "")
              ++ (bif inlineFlag then "inline " else "")
              ++ "uint" ++ toString g.nrBits ++ "_t " ++ funcName
              ++ "(uint" ++ toString g.nrBits ++ "_t " ++ crcVarName
              ++ ", uint8_t " ++ dataVarName ++ ")",
            "\x7b",
            "\tuint" ++ toString g.nrBits ++ "_t ret;"]
        ++ pyBodyGo ";" 0 word
        ++ ["\treturn ret;",
            "\x7d",
            "",
            "#endif /* " ++ funcName.toUpper ++ "_H_ */"]))

/-- One iteration of the reference loop of crc8_ref:
data = ((data << 1) ^ (P if (data & 0x80) else 0)) & 0xFF. -/
def refStep (P : Nat) (data : Nat) : Nat :=
  ((data <<< 1) ^^^ (if data &&& 0x80 ≠ 0 then P else 0)) % 256

/-- The reference state after n loop iterations, starting from
data ^= crc. -/
def refIter (P crc data : Nat) : Nat → Nat
  | 0 => data ^^^ crc
  | n + 1 => refStep P (refIter P crc data n)

/-- crc8_ref (crcgen.py lines 294-298): the bit-serial reference
computation over one byte. -/
def crc8_ref (P crc data : Nat) : Nat := refIter P crc data 8

/-- The assignment of truth values induced by register value crc and byte
value data for the default variable names of the generated code. -/
def inAssign (crc data : Nat) : String → Nat → Bool :=
  fun name i =>
    if name = "data" then data.testBit i
    else if name = "crc" then crc.testBit i
    else false

/-- The value assembled from a word of output-bit formulas the way the
generated code assembles it: each formula evaluated, shifted left by its
position and or-ed together. -/
def wordValueGo (v : String → Nat → Bool) : Nat → List Expr → Nat
  | _, [] => 0
  | i, e :: rest =>
    ((bif evalExpr v e then 1 else 0) <<< i) ||| wordValueGo v (i + 1) rest

/-- The assembled numeric value of a word of output-bit formulas. -/
def wordValue (v : String → Nat → Bool) (w : List Expr) : Nat :=
  wordValueGo v 0 w

/-- The output modes of the command line (the mutually exclusive group). -/
inductive OutMode where
  | python
  | verilogFunction
  | verilogModule
  | c

/-- Failure modes of the command line main. -/
inductive MainErr where
  /-- raise Exception("Invalid polynomial.") -/
  | invalidPolynomial
  /-- a failure propagated from the generation path -/
  | genErr (e : GenErr)

/-- The __main__ driver (crcgen.py lines 287-323) for the four output
modes, with the default naming parameters: the polynomial validation
`not (args.polynomial & 1) or args.polynomial > ((1 << args.nr_bits) - 1)`
raises before the generator is constructed or invoked. -/
def mainRun (P nrBits : Nat) (mode : OutMode) : Except MainErr String :=
  if P &&& 1 = 0 ∨ P > (1 <<< nrBits) - 1 then .error .invalidPolynomial
  else
    match mode with
    | .python =>
      (CrcGen.genPython ⟨P, nrBits⟩ "crc" "crcIn" "data").mapError .genErr
    | .verilogFunction =>
      (CrcGen.genVerilog ⟨P, nrBits⟩ true "crc" "data" "crcIn" "crcOut").mapError .genErr
    | .verilogModule =>
      (CrcGen.genVerilog ⟨P, nrBits⟩ false "crc" "data" "crcIn" "crcOut").mapError .genErr
    | .c =>
      (CrcGen.genC ⟨P, nrBits⟩ "crc" "crcIn" "data" false false).mapError .genErr

/-- No two non-Bit operands of the list are the same Python object. -/
def NoAlias (items : List Expr) : Prop :=
  List.Pairwise
    (fun a b => a.isBit = false → b.isBit = false → pyEq a b = false) items

/-! ### Basic facts about pyEq and evaluation -/

theorem pyEq_refl (e : Expr) : pyEq e e = true := by
  cases e <;> simp [pyEq]

theorem pyEq_comm (a b : Expr) : pyEq a b = pyEq b a := by
  cases a <;> cases b <;> simp only [pyEq] <;> rw [Bool.eq_iff_iff] <;>
    simp only [Bool.and_eq_true, beq_iff_eq] <;>
    constructor <;> intro h <;>
    first
      | exact ⟨h.1.symm, h.2.symm⟩
      | exact h.symm

theorem pyEq_trans {a b c : Expr} (h1 : pyEq a b = true) (h2 : pyEq b c = true) :
    pyEq a c = true := by
  cases a <;> cases b <;> cases c <;> simp_all [pyEq]

theorem pyEq_of_isBit_ne {a b : Expr} (ha : a.isBit = true) (hb : b.isBit = false) :
    pyEq a b = false := by
  cases a <;> cases b <;> simp_all [pyEq, Expr.isBit]

theorem pyEq_of_isBit_ne2 {a b : Expr} (ha : a.isBit = false) (hb : b.isBit = true) :
    pyEq a b = false := by
  cases a <;> cases b <;> simp_all [pyEq, Expr.isBit]

theorem isBit_of_pyEq {a b : Expr} (ha : a.isBit = true) (h : pyEq a b = true) :
    b.isBit = true := by
  cases a <;> cases b <;> simp_all [pyEq, Expr.isBit]

theorem evalExpr_of_pyEq (v : String → Nat → Bool) {a b : Expr}
    (ha : a.isBit = true) (h : pyEq a b = true) : evalExpr v a = evalExpr v b := by
  cases a with
  | bit n i =>
    cases b with
    | bit m j =>
      simp only [pyEq, Bool.and_eq_true, beq_iff_eq] at h
      simp [evalExpr, h.1, h.2]
    | xor oid items => simp [pyEq] at h
  | xor oid items => simp [Expr.isBit] at ha

theorem bool_and_split {a b : Bool} (h : (a && b) = true) : a = true ∧ b = true := by
  cases a <;> cases b <;> simp_all

theorem evalList_append (v : String → Nat → Bool) (l₁ l₂ : List Expr) :
    evalList v (l₁ ++ l₂) = Bool.xor (evalList v l₁) (evalList v l₂) := by
  induction l₁ with
  | nil => simp [evalList]
  | cons e rest ih => simp [evalList, ih, Bool.xor_assoc]

mutual
theorem evalList_allBitsRecursive (v : String → Nat → Bool) :
    ∀ e, evalList v (allBitsRecursive e) = evalExpr v e
  | .bit n i => by simp [allBitsRecursive, evalList, evalExpr]
  | .xor oid items => by
    rw [show allBitsRecursive (.xor oid items) = allBitsList items from by
          simp [allBitsRecursive]]
    rw [show evalExpr v (.xor oid items) = evalList v items from by simp [evalExpr]]
    exact evalList_allBitsList v items

theorem evalList_allBitsList (v : String → Nat → Bool) :
    ∀ l, evalList v (allBitsList l) = evalList v l
  | [] => by simp [allBitsList]
  | e :: rest => by
    rw [show allBitsList (e :: rest) = allBitsRecursive e ++ allBitsList rest from by
          simp [allBitsList]]
    rw [evalList_append, evalList_allBitsRecursive v e, evalList_allBitsList v rest]
    simp [evalList]
end

mutual
theorem allBitsRecursive_isBit :
    ∀ e, ∀ x ∈ allBitsRecursive e, x.isBit = true
  | .bit n i => by simp [allBitsRecursive, Expr.isBit]
  | .xor oid items => by
    rw [show allBitsRecursive (.xor oid items) = allBitsList items from by
          simp [allBitsRecursive]]
    exact allBitsList_isBit items

theorem allBitsList_isBit :
    ∀ l, ∀ x ∈ allBitsList l, x.isBit = true
  | [] => by simp [allBitsList]
  | e :: rest => by
    rw [show allBitsList (e :: rest) = allBitsRecursive e ++ allBitsList rest from by
          simp [allBitsList]]
    intro x hx
    rcases List.mem_append.mp hx with h | h
    · exact allBitsRecursive_isBit e x h
    · exact allBitsList_isBit rest x h
end

/-- The truth value of an exclusive-or list is the parity of the number of
true operands. -/
theorem evalList_parity (v : String → Nat → Bool) (l : List Expr) :
    evalList v l = decide (l.countP (fun e => evalExpr v e) % 2 = 1) := by
  induction l with
  | nil => simp [evalList]
  | cons e rest ih =>
    rw [evalList, ih, List.countP_cons]
    cases h : evalExpr v e
    · simp [h]
    · rcases Nat.mod_two_eq_zero_or_one (rest.countP (fun e => evalExpr v e)) with hp | hp
      · have h2 : (rest.countP (fun e => evalExpr v e) + 1) % 2 = 1 := by omega
        simp [h, hp, h2]
      · have h2 : (rest.countP (fun e => evalExpr v e) + 1) % 2 = 0 := by omega
        simp [h, hp, h2]

/-! ### The optimize pass: characterization, idempotence, parity -/

theorem countBitEq_congr {a b : Expr} (h : pyEq a b = true) (l : List Expr) :
    countBitEq l a = countBitEq l b := by
  have h2 : pyEq b a = true := by rw [pyEq_comm] at h; exact h
  unfold countBitEq
  congr 1
  apply List.filter_congr
  intro x _
  cases hx : x.isBit
  · simp
  · simp only [Bool.true_and]
    rw [Bool.eq_iff_iff]
    constructor
    · intro hxa; exact pyEq_trans hxa h
    · intro hxb; exact pyEq_trans hxb h2

theorem pairwise_append_single {α : Type} {R : α → α → Prop} {acc : List α} {item : α}
    (hacc : acc.Pairwise R) (h : ∀ x ∈ acc, R x item) :
    (acc ++ [item]).Pairwise R := by
  rw [List.pairwise_append]
  refine ⟨hacc, List.pairwise_singleton _ _, ?_⟩
  intro a ha b hb
  rw [List.mem_singleton] at hb
  subst hb
  exact h a ha

theorem any_pyEq_false {acc : List Expr} {item : Expr}
    (h : acc.any (fun x => pyEq x item) = false) :
    ∀ x ∈ acc, pyEq x item = false := by
  intro x hx
  have := List.any_eq_false.mp h x hx
  simpa using this

/-- Every two elements of the list XOR.optimize builds are non-equal under
Python equality: each append is guarded by the membership test. -/
theorem xorOptGo_pairwise (orig : List Expr) :
    ∀ rest acc, acc.Pairwise (fun a b => pyEq a b = false) →
    (xorOptGo orig acc rest).Pairwise (fun a b => pyEq a b = false) := by
  intro rest
  induction rest with
  | nil => intro acc hacc; simpa [xorOptGo] using hacc
  | cons item rest ih =>
    intro acc hacc
    simp only [xorOptGo]
    split_ifs with h1 h2 h3
    · exact ih acc hacc
    · exact ih _ (pairwise_append_single hacc (any_pyEq_false (by simpa using h1)))
    · exact ih _ (pairwise_append_single hacc (any_pyEq_false (by simpa using h1)))
    · exact ih acc hacc

theorem countBitEq_eq_one_of_pairwise {acc rest : List Expr} {item : Expr}
    (hb : item.isBit = true)
    (hacc : ∀ x ∈ acc, pyEq x item = false)
    (hrest : ∀ x ∈ rest, pyEq item x = false) :
    countBitEq (acc ++ item :: rest) item = 1 := by
  unfold countBitEq
  rw [List.filter_append]
  have h1 : acc.filter (fun i => i.isBit && pyEq i item) = [] := by
    rw [List.filter_eq_nil_iff]
    intro x hx
    simp [hacc x hx]
  have h2 : (item :: rest).filter (fun i => i.isBit && pyEq i item) = [item] := by
    rw [List.filter_cons_of_pos (by simp [hb, pyEq_refl])]
    rw [List.filter_eq_nil_iff.mpr]
    intro x hx
    have : pyEq x item = false := by rw [pyEq_comm]; exact hrest x hx
    simp [this]
  rw [h1, h2]
  simp

/-- A list whose elements are pairwise non-equal under Python equality is a
fixed point of XOR.optimize. -/
theorem xorOptGo_fix {m : List Expr}
    (hm : m.Pairwise (fun a b => pyEq a b = false)) :
    ∀ rest acc, m = acc ++ rest → xorOptGo m acc rest = m := by
  intro rest
  induction rest with
  | nil => intro acc h; simp only [xorOptGo]; rw [h, List.append_nil]
  | cons item rest ih =>
    intro acc h
    have hsplit := h ▸ hm
    rw [List.pairwise_append] at hsplit
    obtain ⟨hap, hcp, hcross⟩ := hsplit
    rw [List.pairwise_cons] at hcp
    have hmem : acc.any (fun x => pyEq x item) = false := by
      rw [List.any_eq_false]
      intro x hx
      simp [hcross x hx item (by simp)]
    simp only [xorOptGo, hmem, Bool.false_eq_true, if_false]
    cases hb : item.isBit
    · simp only [if_true]
      exact ih (acc ++ [item]) (by rw [h, List.append_assoc]; rfl)
    · have hcnt : countBitEq m item = 1 := by
        rw [h]
        exact countBitEq_eq_one_of_pairwise hb
          (fun x hx => hcross x hx item (by simp)) hcp.1
      simp only [hcnt, Bool.true_eq_false, if_false, if_pos rfl]
      exact ih (acc ++ [item]) (by rw [h, List.append_assoc]; rfl)

/-- On an operand list where no two non-Bit operands are the same object,
XOR.optimize computes exactly the output the specification describes. -/
theorem xorOptGo_eq_specGo (orig : List Expr) :
    ∀ rest acc,
    rest.Pairwise (fun a b => a.isBit = false → b.isBit = false → pyEq a b = false) →
    (∀ x ∈ acc, ∀ y ∈ rest, x.isBit = false → y.isBit = false → pyEq x y = false) →
    xorOptGo orig acc rest = specGo orig acc rest := by
  intro rest
  induction rest with
  | nil => intro acc _ _; simp [xorOptGo, specGo]
  | cons item rest ih =>
    intro acc hp hacc
    rw [List.pairwise_cons] at hp
    cases hb : item.isBit
    · have hmem : acc.any (fun x => pyEq x item) = false := by
        rw [List.any_eq_false]
        intro x hx
        cases hxb : x.isBit
        · simp [hacc x hx item (by simp) hxb hb]
        · simp [pyEq_of_isBit_ne hxb hb]
      simp only [xorOptGo, specGo, hmem, Bool.false_eq_true, if_false, hb, if_pos rfl]
      refine ih _ hp.2 ?_
      intro x hx y hy
      rcases List.mem_append.mp hx with hx2 | hx2
      · exact hacc x hx2 y (List.mem_cons_of_mem _ hy)
      · rw [List.mem_singleton] at hx2
        subst hx2
        exact fun h1 h2 => hp.1 y hy h1 h2
    · simp only [xorOptGo, specGo, hb, Bool.true_eq_false, if_false]
      split_ifs with h1 h2
      · refine ih acc hp.2 ?_
        intro x hx y hy
        exact hacc x hx y (List.mem_cons_of_mem _ hy)
      · refine ih _ hp.2 ?_
        intro x hx y hy
        rcases List.mem_append.mp hx with hx2 | hx2
        · exact hacc x hx2 y (List.mem_cons_of_mem _ hy)
        · rw [List.mem_singleton] at hx2
          subst hx2
          exact fun h1 h2 => hp.1 y hy h1 h2
      · refine ih acc hp.2 ?_
        intro x hx y hy
        exact hacc x hx y (List.mem_cons_of_mem _ hy)

theorem xorOptimize_eq_spec {l : List Expr} (hna : NoAlias l) :
    xorOptimize l = xorOptimizeSpec l := by
  unfold xorOptimize xorOptimizeSpec
  exact xorOptGo_eq_specGo l l [] hna (by simp)

theorem countBitEq_cons_self {a : Expr} (hb : a.isBit = true) (t : List Expr) :
    countBitEq (a :: t) a = countBitEq t a + 1 := by
  unfold countBitEq
  rw [List.filter_cons_of_pos (by simp [hb, pyEq_refl])]
  simp

theorem countBitEq_cons_nonbit {a : Expr} (hb : a.isBit = false) (t : List Expr)
    (x : Expr) : countBitEq (a :: t) x = countBitEq t x := by
  unfold countBitEq
  rw [List.filter_cons_of_neg (by simp [hb])]

theorem countBitEq_filter {l : List Expr} {q : Expr → Bool} {item : Expr}
    (h : ∀ x ∈ l, (x.isBit && pyEq x item) = true → q x = true) :
    countBitEq (l.filter q) item = countBitEq l item := by
  unfold countBitEq
  rw [List.filter_filter]
  congr 1
  apply List.filter_congr
  intro x hx
  cases hp : (x.isBit && pyEq x item)
  · simp [hp]
  · simp [hp, h x hx hp]

theorem specGo_congr_orig (o₁ o₂ : List Expr) :
    ∀ rest acc,
    (∀ item ∈ rest, item.isBit = true →
      countBitEq o₁ item % 2 = countBitEq o₂ item % 2) →
    specGo o₁ acc rest = specGo o₂ acc rest := by
  intro rest
  induction rest with
  | nil => intro acc _; simp [specGo]
  | cons item rest ih =>
    intro acc h
    have hrec : ∀ acc2, specGo o₁ acc2 rest = specGo o₂ acc2 rest :=
      fun acc2 => ih acc2 (fun x hx hxb => h x (List.mem_cons_of_mem _ hx) hxb)
    cases hb : item.isBit
    · simp only [specGo, hb, if_pos rfl]
      exact hrec _
    · have hcnt := h item (by simp) hb
      simp only [specGo, hb, Bool.true_eq_false, if_false]
      rw [hcnt]
      split_ifs <;> exact hrec _

theorem specGo_prepend (o : List Expr) :
    ∀ rest pre acc,
    (∀ x ∈ pre, ∀ y ∈ rest, pyEq x y = false) →
    specGo o (pre ++ acc) rest = pre ++ specGo o acc rest := by
  intro rest
  induction rest with
  | nil => intro pre acc _; simp [specGo]
  | cons item rest ih =>
    intro pre acc h
    have hpre : ∀ x ∈ pre, ∀ y ∈ rest, pyEq x y = false :=
      fun x hx y hy => h x hx y (List.mem_cons_of_mem _ hy)
    have hassoc : (pre ++ acc) ++ [item] = pre ++ (acc ++ [item]) :=
      List.append_assoc pre acc [item]
    have hmem : (pre ++ acc).any (fun x => pyEq x item) =
        acc.any (fun x => pyEq x item) := by
      rw [List.any_append]
      have hfa : pre.any (fun x => pyEq x item) = false := by
        rw [List.any_eq_false]
        intro x hx
        simp [h x hx item (by simp)]
      rw [hfa, Bool.false_or]
    cases hb : item.isBit
    · simp only [specGo, hb, if_pos rfl]
      rw [hassoc]
      exact ih pre _ hpre
    · simp only [specGo, hb, Bool.true_eq_false, if_false, hmem]
      split_ifs with h1 h2
      · exact ih pre acc hpre
      · rw [hassoc]; exact ih pre _ hpre
      · exact ih pre acc hpre

theorem specGo_skipClass_mem (o : List Expr) {a : Expr} (hba : a.isBit = true) :
    ∀ rest acc, a ∈ acc →
    specGo o acc rest =
      specGo o acc (rest.filter (fun e => !(e.isBit && pyEq e a))) := by
  intro rest
  induction rest with
  | nil => intro acc _; rfl
  | cons item rest ih =>
    intro acc ha
    cases hcls : (item.isBit && pyEq item a)
    · rw [List.filter_cons_of_pos (by simp [hcls])]
      cases hb : item.isBit
      · simp only [specGo, hb, if_pos rfl]
        exact ih _ (List.mem_append_left _ ha)
      · simp only [specGo, hb, Bool.true_eq_false, if_false]
        split_ifs with h1 h2
        · exact ih acc ha
        · exact ih _ (List.mem_append_left _ ha)
        · exact ih acc ha
    · obtain ⟨hbi, hpa⟩ := bool_and_split hcls
      have hmem : acc.any (fun x => pyEq x item) = true := by
        rw [List.any_eq_true]
        refine ⟨a, ha, ?_⟩
        rw [pyEq_comm]
        exact hpa
      rw [List.filter_cons_of_neg (by simp [hcls])]
      simp only [specGo, hbi, Bool.true_eq_false, if_false, hmem, if_pos rfl]
      exact ih acc ha

theorem specGo_skipClass_even (o : List Expr) {a : Expr} (hba : a.isBit = true)
    (heven : countBitEq o a % 2 = 0) :
    ∀ rest acc, (∀ x ∈ acc, x.isBit = true → pyEq x a = false) →
    specGo o acc rest =
      specGo o acc (rest.filter (fun e => !(e.isBit && pyEq e a))) := by
  intro rest
  induction rest with
  | nil => intro acc _; rfl
  | cons item rest ih =>
    intro acc hacc
    cases hcls : (item.isBit && pyEq item a)
    · rw [List.filter_cons_of_pos (by simp [hcls])]
      cases hb : item.isBit
      · simp only [specGo, hb, if_pos rfl]
        refine ih _ ?_
        intro x hx hxb
        rcases List.mem_append.mp hx with h | h
        · exact hacc x h hxb
        · rw [List.mem_singleton] at h
          subst h
          rw [hxb] at hb
          cases hb
      · have hpa : pyEq item a = false := by
          cases hpa2 : pyEq item a
          · rfl
          · rw [hb, hpa2] at hcls; cases hcls
        simp only [specGo, hb, Bool.true_eq_false, if_false]
        split_ifs with h1 h2
        · exact ih acc hacc
        · refine ih _ ?_
          intro x hx hxb
          rcases List.mem_append.mp hx with h | h
          · exact hacc x h hxb
          · rw [List.mem_singleton] at h
            subst h
            exact hpa
        · exact ih acc hacc
    · obtain ⟨hbi, hpa⟩ := bool_and_split hcls
      have hmem : acc.any (fun x => pyEq x item) = false := by
        rw [List.any_eq_false]
        intro x hx
        cases hxb : x.isBit
        · simp [pyEq_of_isBit_ne2 hxb hbi]
        · cases hxi : pyEq x item
          · simp
          · have hxa : pyEq x a = true := pyEq_trans hxi hpa
            rw [hacc x hx hxb] at hxa
            cases hxa
      have hcnt : countBitEq o item % 2 = 0 := by
        rw [countBitEq_congr hpa o]
        exact heven
      rw [List.filter_cons_of_neg (by simp [hcls])]
      simp only [specGo, hbi, Bool.true_eq_false, if_false, hmem,
        Bool.false_eq_true, if_false]
      rw [if_neg (by omega)]
      exact ih acc hacc

theorem spec_cons_nonbit {a : Expr} {t : List Expr} (hb : a.isBit = false)
    (hna : NoAlias (a :: t)) :
    xorOptimizeSpec (a :: t) = a :: xorOptimizeSpec t := by
  have hhead : ∀ y ∈ t, (a.isBit = false → y.isBit = false → pyEq a y = false) :=
    (List.pairwise_cons.mp hna).1
  have hay : ∀ y ∈ t, pyEq a y = false := by
    intro y hy
    cases hyb : y.isBit
    · exact hhead y hy hb hyb
    · exact pyEq_of_isBit_ne2 hb hyb
  unfold xorOptimizeSpec
  have h1 : specGo (a :: t) [] (a :: t) = specGo (a :: t) [a] t := by
    simp only [specGo, hb, if_pos rfl]
    rfl
  rw [h1]
  rw [specGo_congr_orig (a :: t) t t [a]
    (fun x _ _ => by rw [countBitEq_cons_nonbit hb])]
  have h2 : specGo t ([a] ++ []) t = [a] ++ specGo t [] t :=
    specGo_prepend t t [a] [] (by
      intro x hx y hy
      rw [List.mem_singleton] at hx
      subst hx
      exact hay y hy)
  simpa using h2

theorem spec_cons_bit_odd {a : Expr} {t : List Expr} (hb : a.isBit = true)
    (hodd : countBitEq (a :: t) a % 2 = 1) :
    xorOptimizeSpec (a :: t) =
      a :: xorOptimizeSpec (t.filter (fun e => !(e.isBit && pyEq e a))) := by
  unfold xorOptimizeSpec
  have h1 : specGo (a :: t) [] (a :: t) = specGo (a :: t) [a] t := by
    simp only [specGo, hb, Bool.true_eq_false, if_false, List.any_nil,
      Bool.false_eq_true, if_false, hodd, if_pos rfl]
    rfl
  rw [h1, specGo_skipClass_mem (a :: t) hb t [a] (by simp)]
  have horig : ∀ item ∈ t.filter (fun e => !(e.isBit && pyEq e a)),
      item.isBit = true →
      countBitEq (a :: t) item % 2 =
        countBitEq (t.filter (fun e => !(e.isBit && pyEq e a))) item % 2 := by
    intro item hitem hib
    rw [List.mem_filter] at hitem
    have hia : pyEq item a = false := by
      cases hp : pyEq item a
      · rfl
      · rw [hib, hp] at hitem
        simp at hitem
    have hcons : countBitEq (a :: t) item = countBitEq t item := by
      unfold countBitEq
      rw [List.filter_cons_of_neg (by
        have : pyEq a item = false := by rw [pyEq_comm]; exact hia
        simp [this])]
    have hfilt : countBitEq (t.filter (fun e => !(e.isBit && pyEq e a))) item =
        countBitEq t item := by
      apply countBitEq_filter
      intro x hx hmatch
      obtain ⟨hxb, hxi⟩ := bool_and_split hmatch
      have hxa : pyEq x a = false := by
        cases hp : pyEq x a
        · rfl
        · have h3 : pyEq item x = true := by rw [pyEq_comm]; exact hxi
          have h4 : pyEq item a = true := pyEq_trans h3 hp
          rw [hia] at h4
          cases h4
      simp [hxa]
    rw [hcons, hfilt]
  rw [specGo_congr_orig (a :: t) (t.filter (fun e => !(e.isBit && pyEq e a)))
    (t.filter (fun e => !(e.isBit && pyEq e a))) [a] horig]
  have hpre : ∀ x ∈ [a], ∀ y ∈ t.filter (fun e => !(e.isBit && pyEq e a)),
      pyEq x y = false := by
    intro x hx y hy
    rw [List.mem_singleton] at hx
    rw [hx]
    rw [List.mem_filter] at hy
    cases hyb : y.isBit
    · exact pyEq_of_isBit_ne hb hyb
    · have hya : pyEq y a = false := by
        cases hp : pyEq y a
        · rfl
        · rw [hyb, hp] at hy
          simp at hy
      rw [pyEq_comm]
      exact hya
  have h2 := specGo_prepend (t.filter (fun e => !(e.isBit && pyEq e a)))
    (t.filter (fun e => !(e.isBit && pyEq e a))) [a] [] hpre
  simpa using h2

theorem spec_cons_bit_even {a : Expr} {t : List Expr} (hb : a.isBit = true)
    (heven : countBitEq (a :: t) a % 2 = 0) :
    xorOptimizeSpec (a :: t) =
      xorOptimizeSpec (t.filter (fun e => !(e.isBit && pyEq e a))) := by
  unfold xorOptimizeSpec
  have h1 : specGo (a :: t) [] (a :: t) = specGo (a :: t) [] t := by
    simp only [specGo, hb, Bool.true_eq_false, if_false, List.any_nil,
      Bool.false_eq_true, if_false]
    rw [if_neg (by omega)]
  have heven2 : countBitEq (a :: t) a % 2 = 0 := heven
  rw [h1, specGo_skipClass_even (a :: t) hb heven2 t [] (by simp)]
  have horig : ∀ item ∈ t.filter (fun e => !(e.isBit && pyEq e a)),
      item.isBit = true →
      countBitEq (a :: t) item % 2 =
        countBitEq (t.filter (fun e => !(e.isBit && pyEq e a))) item % 2 := by
    intro item hitem hib
    rw [List.mem_filter] at hitem
    have hia : pyEq item a = false := by
      cases hp : pyEq item a
      · rfl
      · rw [hib, hp] at hitem
        simp at hitem
    have hcons : countBitEq (a :: t) item = countBitEq t item := by
      unfold countBitEq
      rw [List.filter_cons_of_neg (by
        have : pyEq a item = false := by rw [pyEq_comm]; exact hia
        simp [this])]
    have hfilt : countBitEq (t.filter (fun e => !(e.isBit && pyEq e a))) item =
        countBitEq t item := by
      apply countBitEq_filter
      intro x hx hmatch
      obtain ⟨hxb, hxi⟩ := bool_and_split hmatch
      have hxa : pyEq x a = false := by
        cases hp : pyEq x a
        · rfl
        · have h3 : pyEq item x = true := by rw [pyEq_comm]; exact hxi
          have h4 : pyEq item a = true := pyEq_trans h3 hp
          rw [hia] at h4
          cases h4
      simp [hxa]
    rw [hcons, hfilt]
  rw [specGo_congr_orig (a :: t) (t.filter (fun e => !(e.isBit && pyEq e a)))
    (t.filter (fun e => !(e.isBit && pyEq e a))) [] horig]

theorem countP_partition {α : Type} (v q : α → Bool) (l : List α) :
    l.countP v = (l.filter q).countP v + (l.filter (fun x => !q x)).countP v := by
  induction l with
  | nil => simp
  | cons a t ih =>
    cases hq : q a <;>
      cases hv : v a <;>
      simp [List.filter_cons, hq, List.countP_cons, hv, ih] <;>
      omega

/-- Parity of the count of operands satisfying v is preserved by the
specified optimization, for any v that is constant on Python-equal Bit
operands. -/
theorem spec_countP_parity (v : Expr → Bool)
    (hv : ∀ a b, a.isBit = true → pyEq a b = true → v a = v b) :
    ∀ n l, l.length ≤ n → NoAlias l →
    (xorOptimizeSpec l).countP v % 2 = l.countP v % 2 := by
  intro n
  induction n with
  | zero =>
    intro l hl _
    have hnil : l = [] := List.length_eq_zero.mp (Nat.le_zero.mp hl)
    subst hnil
    rfl
  | succ n ih =>
    intro l hl hna
    cases l with
    | nil => rfl
    | cons a t =>
      have hlt : t.length ≤ n := by
        simp only [List.length_cons] at hl
        omega
      have hnat : NoAlias t := hna.of_cons
      cases hb : a.isBit
      · rw [spec_cons_nonbit hb hna, List.countP_cons, List.countP_cons]
        have iht := ih t hlt hnat
        cases hva : v a <;> simp only [hva, if_pos rfl, Bool.false_eq_true,
          if_false, Nat.add_zero] <;> omega
      · have hCl : (t.filter (fun e => !(e.isBit && pyEq e a))).length ≤ n :=
          le_trans (List.length_filter_le _ _) hlt
        have hnaC : NoAlias (t.filter (fun e => !(e.isBit && pyEq e a))) :=
          List.Pairwise.sublist (List.filter_sublist t) hnat
        have ihC := ih _ hCl hnaC
        have hpart : t.countP v =
            (t.filter (fun e => e.isBit && pyEq e a)).countP v +
              (t.filter (fun e => !(e.isBit && pyEq e a))).countP v :=
          countP_partition v (fun e => e.isBit && pyEq e a) t
        have hclass : ∀ x ∈ t.filter (fun e => e.isBit && pyEq e a), v x = v a := by
          intro x hx
          rw [List.mem_filter] at hx
          obtain ⟨hxb, hxa⟩ := bool_and_split hx.2
          exact hv x a hxb hxa
        have hlenclass : (t.filter (fun e => e.isBit && pyEq e a)).length =
            countBitEq t a := rfl
        have hcnt : countBitEq (a :: t) a = countBitEq t a + 1 :=
          countBitEq_cons_self hb t
        rcases Nat.mod_two_eq_zero_or_one (countBitEq (a :: t) a) with hpar | hpar
        all_goals have hparn := hcnt ▸ hpar
        · rw [spec_cons_bit_even hb hpar, List.countP_cons, hpart]
          cases hva : v a
          · have hz : (t.filter (fun e => e.isBit && pyEq e a)).countP v = 0 := by
              rw [List.countP_eq_zero]
              intro x hx
              rw [hclass x hx, hva]
              simp
            rw [hz, if_neg (by simp)]
            omega
          · have hz : (t.filter (fun e => e.isBit && pyEq e a)).countP v =
                countBitEq t a := by
              rw [← hlenclass, List.countP_eq_length]
              intro x hx
              rw [hclass x hx, hva]
            rw [hz, if_pos rfl]
            omega
        · rw [spec_cons_bit_odd hb hpar, List.countP_cons, List.countP_cons,
            hpart]
          cases hva : v a
          · have hz : (t.filter (fun e => e.isBit && pyEq e a)).countP v = 0 := by
              rw [List.countP_eq_zero]
              intro x hx
              rw [hclass x hx, hva]
              simp
            rw [hz, if_neg (by simp)]
            omega
          · have hz : (t.filter (fun e => e.isBit && pyEq e a)).countP v =
                countBitEq t a := by
              rw [← hlenclass, List.countP_eq_length]
              intro x hx
              rw [hclass x hx, hva]
            rw [hz, if_pos rfl]
            omega

theorem xorOptimize_countP_parity (v : Expr → Bool)
    (hv : ∀ a b, a.isBit = true → pyEq a b = true → v a = v b)
    (l : List Expr) (hna : NoAlias l) :
    (xorOptimize l).countP v % 2 = l.countP v % 2 := by
  rw [xorOptimize_eq_spec hna]
  exact spec_countP_parity v hv l.length l (le_refl _) hna

/-- XOR.optimize preserves the truth value of the exclusive-or, provided no
two non-Bit operands of the list are the same object. -/
theorem evalList_xorOptimize (v : String → Nat → Bool) (l : List Expr)
    (hna : NoAlias l) : evalList v (xorOptimize l) = evalList v l := by
  rw [evalList_parity, evalList_parity,
    xorOptimize_countP_parity _ (fun a b ha h => evalExpr_of_pyEq v ha h) l hna]

/-! ### Word level facts: flatten, optimize, and the generated word -/

theorem allBits_xor_def (oid : Nat) (items : List Expr) :
    allBitsRecursive (.xor oid items) = allBitsList items := by
  simp [allBitsRecursive]

theorem allBits_xor2 (v : Nat) (a b : Expr) :
    allBitsRecursive (.xor v [a, b]) = allBitsRecursive a ++ allBitsRecursive b := by
  rw [allBits_xor_def]
  simp [allBitsList]

theorem eval_xor_def (v : String → Nat → Bool) (oid : Nat) (items : List Expr) :
    evalExpr v (.xor oid items) = evalList v items := by
  simp [evalExpr]

theorem eval_xor2 (v : String → Nat → Bool) (oid : Nat) (a b : Expr) :
    evalExpr v (.xor oid [a, b]) = Bool.xor (evalExpr v a) (evalExpr v b) := by
  rw [eval_xor_def]
  simp [evalList]

theorem wordGet_mem {w : List Expr} {i : Nat} (h : i < w.length) :
    wordGet w i ∈ w := by
  induction w generalizing i with
  | nil => simp at h
  | cons a t ih =>
    cases i with
    | zero => exact List.mem_cons_self a t
    | succ j =>
      have : j < t.length := by simp at h; omega
      exact List.mem_cons_of_mem a (ih this)

theorem wordGet_map (f : Expr → Expr) {w : List Expr} {i : Nat}
    (h : i < w.length) : wordGet (w.map f) i = f (wordGet w i) := by
  induction w generalizing i with
  | nil => simp at h
  | cons a t ih =>
    cases i with
    | zero => rfl
    | succ j =>
      have : j < t.length := by simp at h; omega
      exact ih this

/-- The forced value of one Word.flatten element on the success path. -/
def flattenElemF : Expr → Expr
  | .xor _ items => .xor 0 (allBitsList items)
  | .bit n i => .bit n i

theorem flattenElem_ok {e : Expr} (hx : e.isXor = true)
    (hl : 2 ≤ (allBitsRecursive e).length) :
    flattenElem e = .ok (flattenElemF e) := by
  cases e with
  | bit n i => simp [Expr.isXor] at hx
  | xor oid items =>
    rw [allBits_xor_def] at hl
    simp [flattenElem, xorInit, hl, flattenElemF]

theorem wordFlatten_ok {w : List Expr}
    (h : ∀ e ∈ w, e.isXor = true ∧ 2 ≤ (allBitsRecursive e).length) :
    wordFlatten w = .ok (w.map flattenElemF) := by
  induction w with
  | nil => rfl
  | cons a t ih =>
    obtain ⟨hx, hl⟩ := h a (List.mem_cons_self a t)
    have ht := ih (fun e he => h e (List.mem_cons_of_mem _ he))
    simp [wordFlatten, flattenElem_ok hx hl, ht]

theorem evalExpr_flattenElemF (v : String → Nat → Bool) (e : Expr) :
    evalExpr v (flattenElemF e) = evalExpr v e := by
  cases e with
  | bit n i => rfl
  | xor oid items =>
    show evalExpr v (.xor 0 (allBitsList items)) = _
    rw [eval_xor_def, eval_xor_def, evalList_allBitsList]

theorem flattenElemF_items_bits (oid : Nat) (items : List Expr) :
    ∀ x ∈ allBitsList items, x.isBit = true := allBitsList_isBit items

theorem noAlias_of_bits {l : List Expr} (h : ∀ x ∈ l, x.isBit = true) :
    NoAlias l := by
  induction l with
  | nil => exact List.Pairwise.nil
  | cons a t ih =>
    refine List.Pairwise.cons ?_ (ih fun x hx => h x (List.mem_cons_of_mem _ hx))
    intro y _ hfa _
    rw [h a (List.mem_cons_self a t)] at hfa
    cases hfa

theorem evalExpr_optimizeElem (v : String → Nat → Bool) {e : Expr}
    (hna : ∀ oid items, e = .xor oid items → NoAlias items) :
    evalExpr v (optimizeElem e) = evalExpr v e := by
  cases e with
  | bit n i => rfl
  | xor oid items =>
    show evalExpr v (.xor oid (xorOptimize items)) = _
    rw [eval_xor_def, eval_xor_def]
    exact evalList_xorOptimize v items (hna oid items rfl)

/-- The invariant of the unrolling loop: the Word has 8 positions, and
every position is an ExclusiveOr node with at least 2 leaf Bits. -/
def WordOk (w : List Expr) : Prop :=
  w.length = 8 ∧ ∀ e ∈ w, e.isXor = true ∧ 2 ≤ (allBitsRecursive e).length

theorem crcBase_get (dn cn : String) (i : Nat) (h : i ≤ 7) :
    wordGet (crcBase dn cn) i = Expr.xor 0 [Expr.bit dn i, Expr.bit cn i] := by
  interval_cases i <;> rfl

theorem crcRound_get0 (P : Nat) (prev : List Expr) :
    wordGet (crcRound P prev) 0 = wordGet prev 7 := rfl

theorem crcRound_get (P : Nat) (prev : List Expr) (i : Nat)
    (h1 : 1 ≤ i) (h7 : i ≤ 7) :
    wordGet (crcRound P prev) i =
      if (P >>> i) &&& 1 = 1 then
        Expr.xor 0 [wordGet prev (i - 1), wordGet prev 7]
      else wordGet prev (i - 1) := by
  interval_cases i <;> rfl

theorem WordOk_base (dn cn : String) : WordOk (crcBase dn cn) := by
  constructor
  · rfl
  · intro e he
    have hlit : crcBase dn cn =
        [Expr.xor 0 [.bit dn 0, .bit cn 0], Expr.xor 0 [.bit dn 1, .bit cn 1],
         Expr.xor 0 [.bit dn 2, .bit cn 2], Expr.xor 0 [.bit dn 3, .bit cn 3],
         Expr.xor 0 [.bit dn 4, .bit cn 4], Expr.xor 0 [.bit dn 5, .bit cn 5],
         Expr.xor 0 [.bit dn 6, .bit cn 6], Expr.xor 0 [.bit dn 7, .bit cn 7]] := rfl
    rw [hlit] at he
    simp only [List.mem_cons, List.not_mem_nil, or_false] at he
    rcases he with rfl | rfl | rfl | rfl | rfl | rfl | rfl | rfl <;>
      exact ⟨rfl, by rw [allBits_xor2]; simp [allBitsRecursive]⟩

theorem pComb_ok {w : List Expr} (hw : WordOk w) (P k m : Nat) (hk : k ≤ 7) :
    (pComb P (some (wordGet w k)) (wordGet w 7) m).isXor = true ∧
    2 ≤ (allBitsRecursive (pComb P (some (wordGet w k)) (wordGet w 7) m)).length := by
  have hmk : wordGet w k ∈ w := wordGet_mem (by rw [hw.1]; omega)
  have ha := hw.2 _ hmk
  unfold pComb
  split_ifs with ht
  · refine ⟨rfl, ?_⟩
    rw [allBits_xor2, List.length_append]
    omega
  · exact ha

theorem WordOk_round {w : List Expr} (hw : WordOk w) (P : Nat) :
    WordOk (crcRound P w) := by
  constructor
  · rfl
  · intro e he
    have hm7 : wordGet w 7 ∈ w := wordGet_mem (by rw [hw.1]; omega)
    simp only [crcRound, mkWordMSB, List.mem_reverse, List.mem_cons,
      List.not_mem_nil, or_false] at he
    rcases he with rfl | rfl | rfl | rfl | rfl | rfl | rfl | rfl
    · exact pComb_ok hw P 6 7 (by omega)
    · exact pComb_ok hw P 5 6 (by omega)
    · exact pComb_ok hw P 4 5 (by omega)
    · exact pComb_ok hw P 3 4 (by omega)
    · exact pComb_ok hw P 2 3 (by omega)
    · exact pComb_ok hw P 1 2 (by omega)
    · exact pComb_ok hw P 0 1 (by omega)
    · exact hw.2 _ hm7

theorem WordOk_crcWords (P : Nat) (dn cn : String) :
    ∀ n, WordOk (crcWords P dn cn n)
  | 0 => WordOk_base dn cn
  | n + 1 => WordOk_round (WordOk_crcWords P dn cn n) P

/-! ### Numeric facts: the reference computation bit by bit -/

theorem and128_ne {x : Nat} : (x &&& 128 ≠ 0) ↔ x.testBit 7 = true := by
  have h128 : (128 : Nat) = 2 ^ 7 := by norm_num
  constructor
  · intro h
    obtain ⟨i, hi⟩ := Nat.ne_zero_implies_bit_true h
    rw [Nat.testBit_and, h128, Nat.testBit_two_pow] at hi
    obtain ⟨h1, h2⟩ := bool_and_split hi
    have h7 : 7 = i := of_decide_eq_true h2
    rw [← h7] at h1
    exact h1
  · intro h hz
    have hb : (x &&& 128).testBit 7 = true := by
      rw [Nat.testBit_and, h, h128, Nat.testBit_two_pow_self]
      rfl
    rw [hz, Nat.zero_testBit] at hb
    cases hb

theorem refStep_testBit (P x i : Nat) (hi : i < 8) :
    (refStep P x).testBit i =
      Bool.xor (if i = 0 then false else x.testBit (i - 1))
        (x.testBit 7 && P.testBit i) := by
  unfold refStep
  have h256 : (256 : Nat) = 2 ^ 8 := by norm_num
  rw [h256, Nat.testBit_mod_two_pow, Nat.testBit_xor, Nat.testBit_shiftLeft]
  have hdec : decide (i < 8) = true := by simp [hi]
  rw [hdec, Bool.true_and]
  congr 1
  · cases i with
    | zero => simp
    | succ j => simp
  · split_ifs with hc
    · rw [and128_ne.mp hc]
      simp
    · have h7 : x.testBit 7 = false := by
        cases hb : x.testBit 7
        · rfl
        · exact absurd (and128_ne.mpr hb) hc
      simp [h7, Nat.zero_testBit]

theorem refIter_lt (P c d n : Nat) : refIter P c d (n + 1) < 256 := by
  rw [refIter]
  unfold refStep
  exact Nat.mod_lt _ (by omega)

/-- The tap test of the generator agrees with testBit. -/
theorem tap_iff (P i : Nat) : ((P >>> i) &&& 1 = 1) ↔ P.testBit i = true := by
  rw [Nat.testBit_to_div_mod, Nat.and_one_is_mod, Nat.shiftRight_eq_div_pow]
  simp

/-- Bit-level simulation: after k rounds of the symbolic unrolling, every
position of the Word evaluates, under the assignment induced by concrete
register and data bytes, to the corresponding bit of the numeric reference
state after k loop iterations. -/
theorem crcWords_testBit (P c d : Nat) (hP : P % 2 = 1) :
    ∀ k i, i ≤ 7 →
    evalExpr (inAssign c d) (wordGet (crcWords P "data" "crc" k) i) =
      (refIter P c d k).testBit i := by
  intro k
  induction k with
  | zero =>
    intro i hi
    show evalExpr (inAssign c d) (wordGet (crcBase "data" "crc") i) =
      (d ^^^ c).testBit i
    rw [crcBase_get _ _ i hi, eval_xor2, Nat.testBit_xor]
    simp [evalExpr, inAssign]
  | succ k ih =>
    intro i hi
    show evalExpr (inAssign c d)
        (wordGet (crcRound P (crcWords P "data" "crc" k)) i) =
      (refStep P (refIter P c d k)).testBit i
    rcases Nat.eq_zero_or_pos i with rfl | hpos
    · rw [crcRound_get0, ih 7 (by omega), refStep_testBit P _ 0 (by omega)]
      have hp0 : P.testBit 0 = true := by
        rw [Nat.testBit_zero]
        simp [hP]
      rw [hp0]
      simp
    · rw [crcRound_get P _ i hpos hi, refStep_testBit P _ i (by omega)]
      have hni : ¬ i = 0 := by omega
      rw [if_neg hni]
      split_ifs with ht
      · rw [eval_xor2, ih (i - 1) (by omega), ih 7 (by omega)]
        rw [(tap_iff P i).mp ht, Bool.and_true]
      · have hpf : P.testBit i = false := by
          cases hpb : P.testBit i
          · rfl
          · exact absurd ((tap_iff P i).mpr hpb) ht
        rw [ih (i - 1) (by omega), hpf, Bool.and_false, Bool.xor_false]

theorem wordValueGo_testBit (v : String → Nat → Bool) :
    ∀ (w : List Expr) (i j : Nat),
    (wordValueGo v i w).testBit j =
      (decide (i ≤ j) && decide (j - i < w.length) &&
        evalExpr v (wordGet w (j - i))) := by
  intro w
  induction w with
  | nil =>
    intro i j
    simp [wordValueGo]
  | cons e rest ih =>
    intro i j
    show ((((bif evalExpr v e then 1 else 0) <<< i) |||
        wordValueGo v (i + 1) rest).testBit j) = _
    rw [Nat.testBit_or, Nat.testBit_shiftLeft, ih (i + 1) j]
    rcases Nat.lt_or_ge j i with hlt | hge
    · have h1 : decide (i ≤ j) = false := by simp; omega
      have h2 : decide (i + 1 ≤ j) = false := by simp; omega
      rw [h1, h2]
      simp
    · rcases Nat.eq_or_lt_of_le hge with heq | hgt
      · have h1 : decide (i ≤ j) = true := by simp [hge]
        have h2 : decide (i + 1 ≤ j) = false := by simp; omega
        have h0 : j - i = 0 := by omega
        rw [h1, h2, h0]
        cases he : evalExpr v e <;> simp [he, wordGet]
      · have h1 : decide (i ≤ j) = true := by simp [hge]
        have h2 : decide (i + 1 ≤ j) = true := by simp; omega
        have hm : j - i = (j - (i + 1)) + 1 := by omega
        rw [h1, h2, hm]
        have hb : (bif evalExpr v e then 1 else (0 : Nat)).testBit
            (j - (i + 1) + 1) = false := by
          cases he : evalExpr v e
          · simp
          · rw [Nat.testBit_add_one]
            simp
        rw [hb]
        have hd : decide (j - (i + 1) + 1 < (e :: rest).length) =
            decide (j - (i + 1) < rest.length) := by
          rw [decide_eq_decide]
          simp
        rw [hd]
        have hg : wordGet (e :: rest) (j - (i + 1) + 1) =
            wordGet rest (j - (i + 1)) := rfl
        rw [hg]
        simp

theorem wordValue_testBit (v : String → Nat → Bool) (w : List Expr) (j : Nat) :
    (wordValue v w).testBit j =
      (decide (j < w.length) && evalExpr v (wordGet w j)) := by
  unfold wordValue
  rw [wordValueGo_testBit]
  simp

/-! ### The generation path end to end -/

theorem gen_ok (P : Nat) (dn cn : String) :
    CrcGen.gen ⟨P, 8⟩ dn cn =
      .ok (wordOptimize ((crcGenWord P dn cn).map flattenElemF)) := by
  have hfl : wordFlatten (crcGenWord P dn cn) =
      .ok ((crcGenWord P dn cn).map flattenElemF) :=
    wordFlatten_ok (WordOk_crcWords P dn cn 8).2
  simp [CrcGen.gen, hfl]

theorem optimizeElem_flattenElemF_eval (v : String → Nat → Bool) (e : Expr)
    (hex : e.isXor = true) :
    evalExpr v (optimizeElem (flattenElemF e)) = evalExpr v e := by
  cases e with
  | bit n i => simp [Expr.isXor] at hex
  | xor oid items =>
    have h1 : flattenElemF (.xor oid items) = .xor 0 (allBitsList items) := rfl
    rw [h1]
    rw [evalExpr_optimizeElem v (fun oid2 items2 h => by
      injection h with hq1 hq2
      rw [← hq2]
      exact noAlias_of_bits (allBitsList_isBit items))]
    rw [← h1, evalExpr_flattenElemF]

theorem genWord_eval (P c d : Nat) (hP : P % 2 = 1) (i : Nat) (hi : i ≤ 7) :
    evalExpr (inAssign c d)
      (wordGet (wordOptimize ((crcGenWord P "data" "crc").map flattenElemF)) i) =
      (crc8_ref P c d).testBit i := by
  have hw := WordOk_crcWords P "data" "crc" 8
  have hlen : (crcGenWord P "data" "crc").length = 8 := hw.1
  have hi1 : i < ((crcGenWord P "data" "crc").map flattenElemF).length := by
    rw [List.length_map, hlen]; omega
  have hi2 : i < (crcGenWord P "data" "crc").length := by rw [hlen]; omega
  show evalExpr (inAssign c d)
      (wordGet (((crcGenWord P "data" "crc").map flattenElemF).map optimizeElem) i) = _
  rw [wordGet_map optimizeElem hi1, wordGet_map flattenElemF hi2]
  have hex : (wordGet (crcGenWord P "data" "crc") i).isXor = true :=
    (hw.2 _ (wordGet_mem hi2)).1
  rw [optimizeElem_flattenElemF_eval _ _ hex]
  exact crcWords_testBit P c d hP 8 i hi

theorem genWord_length (P : Nat) :
    (wordOptimize ((crcGenWord P "data" "crc").map flattenElemF)).length = 8 := by
  show (((crcGenWord P "data" "crc").map flattenElemF).map optimizeElem).length = 8
  rw [List.length_map, List.length_map]
  exact (WordOk_crcWords P "data" "crc" 8).1

theorem genWord_value (P c d : Nat) (hP : P % 2 = 1) :
    wordValue (inAssign c d)
      (wordOptimize ((crcGenWord P "data" "crc").map flattenElemF)) =
      crc8_ref P c d := by
  apply Nat.eq_of_testBit_eq
  intro j
  rw [wordValue_testBit, genWord_length]
  rcases Nat.lt_or_ge j 8 with hj | hj
  · have h1 : decide (j < 8) = true := by simp [hj]
    rw [h1, Bool.true_and]
    exact genWord_eval P c d hP j (by omega)
  · have h1 : decide (j < 8) = false := by simp; omega
    rw [h1, Bool.false_and]
    have hlt : crc8_ref P c d < 2 ^ j := by
      have h256 : crc8_ref P c d < 256 := refIter_lt P c d 7
      have hpow : (256 : Nat) ≤ 2 ^ j := by
        calc (256 : Nat) = 2 ^ 8 := by norm_num
        _ ≤ 2 ^ j := Nat.pow_le_pow_right (by omega) hj
      omega
    rw [Nat.testBit_lt_two_pow hlt]

instance (l : List Expr) : Decidable (NoAlias l) :=
  inferInstanceAs (Decidable (List.Pairwise
    (fun (a b : Expr) =>
      a.isBit = false → b.isBit = false → pyEq a b = false) l))

/-! ### The claims -/

/-- C1: for every odd polynomial P with 0 < P <= 255, every register value
c in [0, 255] and every byte value d in [0, 255], the 8-bit value assembled
from the 8 output-bit formulas of CrcGen.__gen (flattened and optimized,
each evaluated with crc = c and data = d, shifted left by its position and
or-ed together) equals the bit-serial reference computation crc8_ref. -/
theorem claim_c1 (P c d : Nat) (hodd : P % 2 = 1) (hpos : 0 < P)
    (hle : P ≤ 255) (hc : c ≤ 255) (hd : d ≤ 255) :
    ∃ w, CrcGen.gen ⟨P, 8⟩ "data" "crc" = .ok w ∧
      wordValue (inAssign c d) w = crc8_ref P c d :=
  ⟨_, gen_ok P "data" "crc", genWord_value P c d hodd⟩

theorem claim_c1_witness :
    (7 : Nat) % 2 = 1 ∧ 0 < (7 : Nat) ∧ (7 : Nat) ≤ 255 ∧
    (0 : Nat) ≤ 255 ∧ (1 : Nat) ≤ 255 ∧
    ∃ w, CrcGen.gen ⟨7, 8⟩ "data" "crc" = .ok w ∧
      wordValue (inAssign 0 1) w = crc8_ref 7 0 1 :=
  ⟨rfl, by decide, by decide, by decide, by decide,
    claim_c1 7 0 1 rfl (by decide) (by decide) (by decide) (by decide)⟩

/-- C2: the unrolling of CrcGen.__gen follows exactly the specified step
structure: the base Word holds ExclusiveOr(dataBit i, crcBit i) at every
position i, each derivation round maps position i (for 7 down to 1) to
ExclusiveOr(prev[i-1], prev[7]) when bit i of the polynomial is set and to
prev[i-1] otherwise, maps position 0 to prev[7], and the generated Word is
exactly 8 rounds applied to the base Word. -/
theorem claim_c2 (P : Nat) (dn cn : String) (prev : List Expr)
    (hlen : prev.length = 8) (i : Nat) (h1 : 1 ≤ i) (h7 : i ≤ 7) :
    wordGet (crcBase dn cn) 0 = Expr.xor 0 [Expr.bit dn 0, Expr.bit cn 0] ∧
    wordGet (crcBase dn cn) i = Expr.xor 0 [Expr.bit dn i, Expr.bit cn i] ∧
    wordGet (crcRound P prev) i =
      (if (P >>> i) &&& 1 = 1 then
        Expr.xor 0 [wordGet prev (i - 1), wordGet prev 7]
      else wordGet prev (i - 1)) ∧
    wordGet (crcRound P prev) 0 = wordGet prev 7 ∧
    crcGenWord P dn cn =
      crcRound P (crcRound P (crcRound P (crcRound P (crcRound P
        (crcRound P (crcRound P (crcRound P (crcBase dn cn)))))))) :=
  ⟨crcBase_get dn cn 0 (by omega), crcBase_get dn cn i h7,
    crcRound_get P prev i h1 h7, crcRound_get0 P prev, rfl⟩

theorem claim_c2_witness :
    (crcBase "data" "crc").length = 8 ∧ (1 : Nat) ≤ 3 ∧ (3 : Nat) ≤ 7 ∧
    (wordGet (crcBase "data" "crc") 0 =
        Expr.xor 0 [Expr.bit "data" 0, Expr.bit "crc" 0] ∧
      wordGet (crcBase "data" "crc") 3 =
        Expr.xor 0 [Expr.bit "data" 3, Expr.bit "crc" 3] ∧
      wordGet (crcRound 7 (crcBase "data" "crc")) 3 =
        (if ((7 : Nat) >>> 3) &&& 1 = 1 then
          Expr.xor 0 [wordGet (crcBase "data" "crc") 2,
                      wordGet (crcBase "data" "crc") 7]
        else wordGet (crcBase "data" "crc") 2) ∧
      wordGet (crcRound 7 (crcBase "data" "crc")) 0 =
        wordGet (crcBase "data" "crc") 7 ∧
      crcGenWord 7 "data" "crc" =
        crcRound 7 (crcRound 7 (crcRound 7 (crcRound 7 (crcRound 7
          (crcRound 7 (crcRound 7 (crcRound 7 (crcBase "data" "crc"))))))))) :=
  ⟨rfl, by decide, by decide,
    claim_c2 7 "data" "crc" (crcBase "data" "crc") rfl 3 (by decide) (by decide)⟩

/-- C3, counterexample: when the very same ExclusiveOr object occurs at two
positions of the operand list (in Python, XOR(x, x)), XOR.optimize drops
the second occurrence through its membership pre-test, which falls back to
object identity for non-Bit operands; the output the claim describes keeps
both occurrences.  So a non-Bit operand is not kept unconditionally. -/
theorem claim_c3_counterexample :
    xorOptimize [Expr.xor 0 [Expr.bit "a" 0, Expr.bit "a" 1],
                 Expr.xor 0 [Expr.bit "a" 0, Expr.bit "a" 1]] =
      [Expr.xor 0 [Expr.bit "a" 0, Expr.bit "a" 1]] ∧
    xorOptimizeSpec [Expr.xor 0 [Expr.bit "a" 0, Expr.bit "a" 1],
                     Expr.xor 0 [Expr.bit "a" 0, Expr.bit "a" 1]] =
      [Expr.xor 0 [Expr.bit "a" 0, Expr.bit "a" 1],
       Expr.xor 0 [Expr.bit "a" 0, Expr.bit "a" 1]] ∧
    xorOptimize [Expr.xor 0 [Expr.bit "a" 0, Expr.bit "a" 1],
                 Expr.xor 0 [Expr.bit "a" 0, Expr.bit "a" 1]] ≠
      xorOptimizeSpec [Expr.xor 0 [Expr.bit "a" 0, Expr.bit "a" 1],
                       Expr.xor 0 [Expr.bit "a" 0, Expr.bit "a" 1]] := by
  refine ⟨rfl, rfl, fun h => absurd (congrArg List.length h) (by decide)⟩

/-- C3, amended: on every operand list in which no two non-Bit operands are
the same object (always the case on the generation path, where the operand
lists given to optimize hold only Bit leaves), XOR.optimize produces
exactly the described result: a Bit leaf survives iff its multiplicity
among the Bit leaves is odd, then exactly once at its first occurrence;
even-multiplicity Bits vanish; survivors keep first-occurrence order; and
every non-Bit operand is kept without deduplication. -/
theorem claim_c3_amended (l : List Expr) (hna : NoAlias l) :
    xorOptimize l = xorOptimizeSpec l :=
  xorOptimize_eq_spec hna

theorem claim_c3_witness :
    NoAlias [Expr.xor 0 [Expr.bit "a" 0, Expr.bit "a" 1],
             Expr.xor 1 [Expr.bit "a" 0, Expr.bit "a" 1],
             Expr.bit "b" 0, Expr.bit "b" 0, Expr.bit "c" 5] ∧
    xorOptimize [Expr.xor 0 [Expr.bit "a" 0, Expr.bit "a" 1],
                 Expr.xor 1 [Expr.bit "a" 0, Expr.bit "a" 1],
                 Expr.bit "b" 0, Expr.bit "b" 0, Expr.bit "c" 5] =
      xorOptimizeSpec [Expr.xor 0 [Expr.bit "a" 0, Expr.bit "a" 1],
                       Expr.xor 1 [Expr.bit "a" 0, Expr.bit "a" 1],
                       Expr.bit "b" 0, Expr.bit "b" 0, Expr.bit "c" 5] :=
  ⟨by decide, claim_c3_amended _ (by decide)⟩

/-- C4: the claim states that a Word element that is already a bare Bit
passes through Word.flatten unchanged and flatten does not fail.  The code
disagrees: the non-XOR branch appends the undefined name `bit` instead of
the element being processed (a copy/paste slip acknowledged by the design
notes), so flatten raises NameError on any Word holding a bare Bit.  This
theorem evaluates the modelled code at such a failing input. -/
theorem claim_c4_bug :
    wordFlatten [Expr.bit "x" 0,
                 Expr.xor 0 [Expr.bit "x" 0, Expr.bit "x" 1]] =
      .error .nameErrorBit := rfl

/-- C5: for every odd polynomial, every position of the Word built by the
8 unrolling rounds of CrcGen.__gen is an ExclusiveOr node, never a bare
Bit; hence the defective non-ExclusiveOr branch of Word.flatten is
unreachable on the generation path and __gen completes without error. -/
theorem claim_c5 (P : Nat) (dn cn : String) (hodd : P % 2 = 1) :
    (∀ e ∈ crcGenWord P dn cn, e.isXor = true) ∧
    wordFlatten (crcGenWord P dn cn) ≠ .error .nameErrorBit ∧
    ∃ w, CrcGen.gen ⟨P, 8⟩ dn cn = .ok w := by
  refine ⟨fun e he => ((WordOk_crcWords P dn cn 8).2 e he).1, ?_,
    ⟨_, gen_ok P dn cn⟩⟩
  have hfl : wordFlatten (crcGenWord P dn cn) =
      .ok ((crcGenWord P dn cn).map flattenElemF) :=
    wordFlatten_ok (WordOk_crcWords P dn cn 8).2
  rw [hfl]
  simp

theorem claim_c5_witness :
    (7 : Nat) % 2 = 1 ∧
    ((∀ e ∈ crcGenWord 7 "data" "crc", e.isXor = true) ∧
      wordFlatten (crcGenWord 7 "data" "crc") ≠ .error .nameErrorBit ∧
      ∃ w, CrcGen.gen ⟨7, 8⟩ "data" "crc" = .ok w) :=
  ⟨rfl, claim_c5 7 "data" "crc" rfl⟩

/-- C6: XOR.optimize is idempotent: applying it twice to an operand list
yields the same operand list as applying it once. -/
theorem claim_c6 (items : List Expr) :
    xorOptimize (xorOptimize items) = xorOptimize items := by
  have hp : (xorOptimize items).Pairwise (fun a b => pyEq a b = false) :=
    xorOptGo_pairwise items items [] List.Pairwise.nil
  exact xorOptGo_fix hp (xorOptimize items) [] rfl

/-- C7, counterexample: a Word whose single element is an ExclusiveOr over
Bit leaves (XOR(x, x) where x = XOR(Bit a0, Bit a1), the same object
twice), on which Word.optimize changes the truth value of position 0: the
identity-based membership pre-test drops the second occurrence of x, so an
expression denoting constant false starts denoting a0 xor a1.  Length is
preserved but per-position semantics is not. -/
theorem claim_c7_counterexample :
    (∀ e ∈ ([Expr.xor 1 [Expr.xor 0 [Expr.bit "a" 0, Expr.bit "a" 1],
                         Expr.xor 0 [Expr.bit "a" 0, Expr.bit "a" 1]]] :
        List Expr),
      e.isXor = true ∧ (∀ x ∈ allBitsRecursive e, x.isBit = true) ∧
        2 ≤ (allBitsRecursive e).length) ∧
    (wordOptimize [Expr.xor 1 [Expr.xor 0 [Expr.bit "a" 0, Expr.bit "a" 1],
                               Expr.xor 0 [Expr.bit "a" 0, Expr.bit "a" 1]]]).length =
      1 ∧
    evalExpr (fun _ i => i == 0)
      (wordGet (wordOptimize
        [Expr.xor 1 [Expr.xor 0 [Expr.bit "a" 0, Expr.bit "a" 1],
                     Expr.xor 0 [Expr.bit "a" 0, Expr.bit "a" 1]]]) 0) = true ∧
    evalExpr (fun _ i => i == 0)
      (wordGet [Expr.xor 1 [Expr.xor 0 [Expr.bit "a" 0, Expr.bit "a" 1],
                            Expr.xor 0 [Expr.bit "a" 0, Expr.bit "a" 1]]] 0) =
      false := by
  refine ⟨?_, rfl, ?_, ?_⟩
  · intro e he
    rw [List.mem_singleton] at he
    subst he
    refine ⟨rfl, ?_, ?_⟩
    · exact allBitsRecursive_isBit _
    · simp [allBitsRecursive, allBitsList]
  · show evalExpr (fun _ i => i == 0)
      (Expr.xor 1 (xorOptimize
        [Expr.xor 0 [Expr.bit "a" 0, Expr.bit "a" 1],
         Expr.xor 0 [Expr.bit "a" 0, Expr.bit "a" 1]])) = true
    rw [show xorOptimize
        [Expr.xor 0 [Expr.bit "a" 0, Expr.bit "a" 1],
         Expr.xor 0 [Expr.bit "a" 0, Expr.bit "a" 1]] =
        [Expr.xor 0 [Expr.bit "a" 0, Expr.bit "a" 1]] from rfl]
    simp [eval_xor_def, evalList, evalExpr]
  · simp [wordGet, eval_xor_def, evalList, evalExpr]

/-- C7, amended: for every Word whose elements are ExclusiveOr nodes over
Bit leaves (at least 2 leaves each, as any constructible ExclusiveOr has),
flatten succeeds and preserves the number of positions and the truth value
of every position under every assignment, and optimize always preserves
the number of positions; provided additionally that no element holds the
same non-Bit operand object at two positions of its operand list
(automatic after flatten, where all operands are Bit leaves), optimize
also preserves per-position truth values. -/
theorem claim_c7_amended (w : List Expr)
    (hx : ∀ e ∈ w, e.isXor = true)
    (hl : ∀ e ∈ w, 2 ≤ (allBitsRecursive e).length) :
    ∃ w2, wordFlatten w = .ok w2 ∧ w2.length = w.length ∧
      (∀ v i, i < w.length →
        evalExpr v (wordGet w2 i) = evalExpr v (wordGet w i)) ∧
      (wordOptimize w).length = w.length ∧
      ((∀ oid items, Expr.xor oid items ∈ w → NoAlias items) →
        ∀ v i, i < w.length →
          evalExpr v (wordGet (wordOptimize w) i) = evalExpr v (wordGet w i)) := by
  refine ⟨w.map flattenElemF,
    wordFlatten_ok (fun e he => ⟨hx e he, hl e he⟩), by simp, ?_,
    by simp [wordOptimize], ?_⟩
  · intro v i hi
    rw [wordGet_map flattenElemF hi]
    exact evalExpr_flattenElemF v _
  · intro hna v i hi
    show evalExpr v (wordGet (w.map optimizeElem) i) = _
    rw [wordGet_map optimizeElem hi]
    apply evalExpr_optimizeElem
    intro oid items heq
    apply hna oid items
    rw [← heq]
    exact wordGet_mem hi

theorem claim_c7_witness :
    (∀ e ∈ ([Expr.xor 5 [Expr.bit "a" 0, Expr.bit "a" 1]] : List Expr),
      e.isXor = true) ∧
    (∀ e ∈ ([Expr.xor 5 [Expr.bit "a" 0, Expr.bit "a" 1]] : List Expr),
      2 ≤ (allBitsRecursive e).length) ∧
    (∃ w2, wordFlatten [Expr.xor 5 [Expr.bit "a" 0, Expr.bit "a" 1]] = .ok w2 ∧
      w2.length = ([Expr.xor 5 [Expr.bit "a" 0, Expr.bit "a" 1]] :
        List Expr).length ∧
      (∀ v i, i < ([Expr.xor 5 [Expr.bit "a" 0, Expr.bit "a" 1]] :
          List Expr).length →
        evalExpr v (wordGet w2 i) =
          evalExpr v (wordGet [Expr.xor 5 [Expr.bit "a" 0, Expr.bit "a" 1]] i)) ∧
      (wordOptimize [Expr.xor 5 [Expr.bit "a" 0, Expr.bit "a" 1]]).length =
        ([Expr.xor 5 [Expr.bit "a" 0, Expr.bit "a" 1]] : List Expr).length ∧
      ((∀ oid items,
          Expr.xor oid items ∈ ([Expr.xor 5 [Expr.bit "a" 0, Expr.bit "a" 1]] :
            List Expr) → NoAlias items) →
        ∀ v i, i < ([Expr.xor 5 [Expr.bit "a" 0, Expr.bit "a" 1]] :
            List Expr).length →
          evalExpr v (wordGet (wordOptimize
              [Expr.xor 5 [Expr.bit "a" 0, Expr.bit "a" 1]]) i) =
            evalExpr v
              (wordGet [Expr.xor 5 [Expr.bit "a" 0, Expr.bit "a" 1]] i))) := by
  have hx : ∀ e ∈ ([Expr.xor 5 [Expr.bit "a" 0, Expr.bit "a" 1]] : List Expr),
      e.isXor = true := by
    intro e he
    rw [List.mem_singleton] at he
    subst he
    rfl
  have hl : ∀ e ∈ ([Expr.xor 5 [Expr.bit "a" 0, Expr.bit "a" 1]] : List Expr),
      2 ≤ (allBitsRecursive e).length := by
    intro e he
    rw [List.mem_singleton] at he
    subst he
    simp [allBitsRecursive, allBitsList]
  exact ⟨hx, hl, claim_c7_amended _ hx hl⟩

/-- C8: any CrcGen holding an odd polynomial and a register width other
than 8 fails generation (the nrBits assertion of CrcGen.__gen) in each of
genPython, genVerilog and genC, producing an error instead of output. -/
theorem claim_c8 (g : CrcGen) (hodd : g.P &&& 1 = 1) (hn : g.nrBits ≠ 8)
    (funcName crcVarName dataVarName name inDataName inCrcName
      outCrcName : String) (genFunction staticFlag inlineFlag : Bool) :
    CrcGen.genPython g funcName crcVarName dataVarName =
      .error .nrBitsAssert ∧
    CrcGen.genVerilog g genFunction name inDataName inCrcName outCrcName =
      .error .nrBitsAssert ∧
    CrcGen.genC g funcName crcVarName dataVarName staticFlag inlineFlag =
      .error .nrBitsAssert := by
  have hgen : ∀ s1 s2 : String, CrcGen.gen g s1 s2 = .error .nrBitsAssert := by
    intro s1 s2
    unfold CrcGen.gen
    rw [if_neg hn]
  refine ⟨?_, ?_, ?_⟩ <;>
    simp [CrcGen.genPython, CrcGen.genVerilog, CrcGen.genC, hgen]

theorem claim_c8_witness :
    (CrcGen.mk 7 9).P &&& 1 = 1 ∧ (CrcGen.mk 7 9).nrBits ≠ 8 ∧
    (CrcGen.genPython (CrcGen.mk 7 9) "crc" "crcIn" "data" =
        .error .nrBitsAssert ∧
      CrcGen.genVerilog (CrcGen.mk 7 9) true "crc" "data" "crcIn" "crcOut" =
        .error .nrBitsAssert ∧
      CrcGen.genC (CrcGen.mk 7 9) "crc" "crcIn" "data" false false =
        .error .nrBitsAssert) :=
  ⟨by decide, by decide,
    claim_c8 (CrcGen.mk 7 9) (by decide) (by decide)
      "crc" "crcIn" "data" "crc" "data" "crcIn" "crcOut" true false false⟩

/-- C9: the command line validation rejects, before any generation work,
every even polynomial and every polynomial exceeding 2 ^ width - 1: the
run fails with the invalid-polynomial error and produces no output. -/
theorem claim_c9 (P nrBits : Nat) (mode : OutMode)
    (h : P % 2 = 0 ∨ P > 2 ^ nrBits - 1) :
    mainRun P nrBits mode = .error .invalidPolynomial := by
  have hc : P &&& 1 = 0 ∨ P > (1 <<< nrBits) - 1 := by
    rcases h with h | h
    · left; rw [Nat.and_one_is_mod]; exact h
    · right; rw [Nat.one_shiftLeft]; exact h
  unfold mainRun
  rw [if_pos hc]

theorem claim_c9_witness :
    ((8 : Nat) % 2 = 0 ∨ (8 : Nat) > 2 ^ 8 - 1) ∧
    mainRun 8 8 OutMode.python = .error .invalidPolynomial :=
  ⟨Or.inl rfl, claim_c9 8 8 OutMode.python (Or.inl rfl)⟩

/-- C10: constructing an ExclusiveOr node with fewer than 2 child
expressions fails fast, and construction with 2 or more succeeds. -/
theorem claim_c10 (items : List Expr) :
    (items.length < 2 → xorInit items = none) ∧
    (2 ≤ items.length → ∃ e, xorInit items = some e) := by
  constructor
  · intro h
    unfold xorInit
    rw [if_neg (by omega)]
  · intro h
    exact ⟨_, by unfold xorInit; rw [if_pos h]⟩

theorem claim_c10_witness :
    xorInit [] = none ∧
    ∃ e, xorInit [Expr.bit "a" 0, Expr.bit "a" 1] = some e :=
  ⟨(claim_c10 []).1 (by decide),
    (claim_c10 [Expr.bit "a" 0, Expr.bit "a" 1]).2 (by decide)⟩

end CrcGenSpec
